import Mathlib

/-!
# Verification of the Bloch simulation core (`src/simu/bloch.c`)

This file gives a shallow embedding of the Bloch/McConnell simulation engine
over the real numbers (the C code computes with `float`; we model the ideal
real-valued computation) and proves the stated properties of the engine:
rotation kernels, the Bloch ODE right-hand side, closed-form relaxation and
excitation propagators, the state Jacobian, the augmented 4/10/13-dimensional
operator matrices, and the P-pool McConnell exchange operator.

External routines consumed by `bloch.c` but implemented elsewhere in the
repository (`num/vec3.h`, `num/matexp.h`) are modelled from the spec, as
noted in their doc comments.
-/

open Real Matrix

noncomputable section

/-- `rotx` from `bloch.c`: rotation of a 3-vector about the x-axis
(right-handed coordinates, clockwise-positive angle). -/
def rotx (v : Fin 3 → ℝ) (angle : ℝ) : Fin 3 → ℝ :=
  ![v 0,
    v 1 * Real.cos angle + v 2 * Real.sin angle,
    -(v 1) * Real.sin angle + v 2 * Real.cos angle]

/-- `roty` from `bloch.c`: rotation of a 3-vector about the y-axis. -/
def roty (v : Fin 3 → ℝ) (angle : ℝ) : Fin 3 → ℝ :=
  ![v 0 * Real.cos angle - v 2 * Real.sin angle,
    v 1,
    v 0 * Real.sin angle + v 2 * Real.cos angle]

/-- `rotz` from `bloch.c`: rotation of a 3-vector about the z-axis. -/
def rotz (v : Fin 3 → ℝ) (angle : ℝ) : Fin 3 → ℝ :=
  ![v 0 * Real.cos angle + v 1 * Real.sin angle,
    -(v 0) * Real.sin angle + v 1 * Real.cos angle,
    v 2]

/-- Modelled from the spec: `vec3_rot` (from `num/vec3.h`, not under `src/`) is
the black-box cross-product operation `out = in × axis` used as the
infinitesimal-rotation operator — `vectorRotate(out, in, axisVector)` in §6 of
the spec, "black-box cross-product-based rotation", with the orientation fixed
by the Bloch equation `dM/dt = M×B` (§4.2). -/
def vec3_rot (a b : Fin 3 → ℝ) : Fin 3 → ℝ :=
  ![a 1 * b 2 - a 2 * b 1,
    a 2 * b 0 - a 0 * b 2,
    a 0 * b 1 - a 1 * b 0]

/-- `bloch_ode` from `bloch.c`: right-hand side of the Bloch equation,
`dM/dt = M×gb − (r2·Mx, r2·My, r1·(Mz−m0))` with `m0 = 1`. -/
def bloch_ode (inp : Fin 3 → ℝ) (r1 r2 : ℝ) (gb : Fin 3 → ℝ) : Fin 3 → ℝ :=
  let m0 : ℝ := 1
  ![vec3_rot inp gb 0 - inp 0 * r2,
    vec3_rot inp gb 1 - inp 1 * r2,
    vec3_rot inp gb 2 - (inp 2 - m0) * r1]

/-- `bloch_pdy` from `bloch.c`: derivative of `bloch_ode` with respect to the
state.  The row `out[a]` is `vec3_rot eₐ gb` with the relaxation rate
subtracted on the diagonal (the state argument `inp` is ignored, as in the
C code: `(void)in`). -/
def bloch_pdy (inp : Fin 3 → ℝ) (r1 r2 : ℝ) (gb : Fin 3 → ℝ) : Fin 3 → Fin 3 → ℝ :=
  ![![vec3_rot ![1, 0, 0] gb 0 - r2, vec3_rot ![1, 0, 0] gb 1, vec3_rot ![1, 0, 0] gb 2],
    ![vec3_rot ![0, 1, 0] gb 0, vec3_rot ![0, 1, 0] gb 1 - r2, vec3_rot ![0, 1, 0] gb 2],
    ![vec3_rot ![0, 0, 1] gb 0, vec3_rot ![0, 0, 1] gb 1, vec3_rot ![0, 0, 1] gb 2 - r1]]

/-- `bloch_relaxation` from `bloch.c` (the computation performed after the
assertion passes): z-rotation by `gb[2]·t`, transverse decay by `exp(−t·r2)`,
and longitudinal recovery toward `m0 = 1`. -/
def bloch_relaxation (t : ℝ) (inp : Fin 3 → ℝ) (r1 r2 : ℝ) (gb : Fin 3 → ℝ) :
    Fin 3 → ℝ :=
  let m0 : ℝ := 1
  let o := rotz inp (gb 2 * t)
  ![o 0 * Real.exp (-t * r2),
    o 1 * Real.exp (-t * r2),
    o 2 + (m0 - inp 2) * (1 - Real.exp (-t * r1))]

/-- `bloch_relaxation` including its `assert((0. == gb[0]) && (0. == gb[1]))`:
the irrecoverable abort is modelled as `none`. -/
def bloch_relaxation_checked (t : ℝ) (inp : Fin 3 → ℝ) (r1 r2 : ℝ)
    (gb : Fin 3 → ℝ) : Option (Fin 3 → ℝ) :=
  if (0 = gb 0) ∧ (0 = gb 1) then some (bloch_relaxation t inp r1 r2 gb) else none

/-- `bloch_excitation` from `bloch.c` (the computation performed after the
assertion passes): pure x-rotation by `gb[0]·t`; `r1`, `r2` are ignored, as in
the C code. -/
def bloch_excitation (t : ℝ) (inp : Fin 3 → ℝ) (r1 r2 : ℝ) (gb : Fin 3 → ℝ) :
    Fin 3 → ℝ :=
  rotx inp (gb 0 * t)

/-- `bloch_excitation` including its `assert(0. == gb[2])`: the irrecoverable
abort is modelled as `none`. -/
def bloch_excitation_checked (t : ℝ) (inp : Fin 3 → ℝ) (r1 r2 : ℝ)
    (gb : Fin 3 → ℝ) : Option (Fin 3 → ℝ) :=
  if 0 = gb 2 then some (bloch_excitation t inp r1 r2 gb) else none

/-- `bloch_excitation2` from `bloch.c`: RF pulse at arbitrary phase — rotate by
`−phase` about z, by `angle` about x, then by `+phase` about z. -/
def bloch_excitation2 (inp : Fin 3 → ℝ) (angle phase : ℝ) : Fin 3 → ℝ :=
  rotz (rotx (rotz inp (-phase)) angle) phase

/-- `bloch_matrix_ode` from `bloch.c`: the 4×4 homogeneous operator of the
affine Bloch equation acting on `[Mx, My, Mz, 1]`. -/
def bloch_matrix_ode (r1 r2 : ℝ) (gb : Fin 3 → ℝ) : Matrix (Fin 4) (Fin 4) ℝ :=
  let m0 : ℝ := 1
  !![-r2,      gb 2,     -(gb 1),  0;
     -(gb 2),  -r2,      gb 0,     0;
     gb 1,     -(gb 0),  -r1,      m0 * r1;
     0,        0,        0,        0]

/-- Modelled from the spec: `mat_exp` (from `num/matexp.h`, not under `src/`)
is the external matrix-exponential routine — `matrixExponential(n, t, out, in)`
"computes out = exp(t·in) for real n×n matrices" (§6). -/
def mat_exp {n : ℕ} (t : ℝ) (A : Matrix (Fin n) (Fin n) ℝ) :
    Matrix (Fin n) (Fin n) ℝ :=
  NormedSpace.exp ℝ (t • A)

/-- `bloch_matrix_int` from `bloch.c`: `mat_exp(4, t, ·, bloch_matrix_ode)`. -/
def bloch_matrix_int (t r1 r2 : ℝ) (gb : Fin 3 → ℝ) : Matrix (Fin 4) (Fin 4) ℝ :=
  mat_exp t (bloch_matrix_ode r1 r2 gb)

/-- `bloch_matrix_ode_sa` from `bloch.c`: the 10×10 operator propagating the
state and its sensitivities with respect to `r1` and `r2`. -/
def bloch_matrix_ode_sa (r1 r2 : ℝ) (gb : Fin 3 → ℝ) :
    Matrix (Fin 10) (Fin 10) ℝ :=
  let m0 : ℝ := 1
  !![-r2,     gb 2,    -(gb 1), 0,       0,       0,       0,       0,       0,       0;
     -(gb 2), -r2,     gb 0,    0,       0,       0,       0,       0,       0,       0;
     gb 1,    -(gb 0), -r1,     0,       0,       0,       0,       0,       0,       m0 * r1;
     0,       0,       0,       -r2,     gb 2,    -(gb 1), 0,       0,       0,       0;
     0,       0,       0,       -(gb 2), -r2,     gb 0,    0,       0,       0,       0;
     0,       0,       -1,      gb 1,    -(gb 0), -r1,     0,       0,       0,       m0;
     -1,      0,       0,       0,       0,       0,       -r2,     gb 2,    -(gb 1), 0;
     0,       -1,      0,       0,       0,       0,       -(gb 2), -r2,     gb 0,    0;
     0,       0,       0,       0,       0,       0,       gb 1,    -(gb 0), -r1,     0;
     0,       0,       0,       0,       0,       0,       0,       0,       0,       0]

/-- `bloch_matrix_ode_sa2` from `bloch.c`: the 13×13 operator additionally
propagating the sensitivity with respect to the B1 amplitude. -/
def bloch_matrix_ode_sa2 (r1 r2 : ℝ) (gb : Fin 3 → ℝ) (phase b1 : ℝ) :
    Matrix (Fin 13) (Fin 13) ℝ :=
  let m0 : ℝ := 1
  !![-r2,     gb 2,    -(gb 1), 0,       0,       0,       0,       0,       0,       0,       0,       0,       0;
     -(gb 2), -r2,     gb 0,    0,       0,       0,       0,       0,       0,       0,       0,       0,       0;
     gb 1,    -(gb 0), -r1,     0,       0,       0,       0,       0,       0,       0,       0,       0,       m0 * r1;
     0,       0,       0,       -r2,     gb 2,    -(gb 1), 0,       0,       0,       0,       0,       0,       0;
     0,       0,       0,       -(gb 2), -r2,     gb 0,    0,       0,       0,       0,       0,       0,       0;
     0,       0,       -1,      gb 1,    -(gb 0), -r1,     0,       0,       0,       0,       0,       0,       m0;
     -1,      0,       0,       0,       0,       0,       -r2,     gb 2,    -(gb 1), 0,       0,       0,       0;
     0,       -1,      0,       0,       0,       0,       -(gb 2), -r2,     gb 0,    0,       0,       0,       0;
     0,       0,       0,       0,       0,       0,       gb 1,    -(gb 0), -r1,     0,       0,       0,       0;
     0,       0,       Real.sin phase * b1, 0,    0,       0,       0,       0,       0,       -r2,     gb 2,    -(gb 1), 0;
     0,       0,       Real.cos phase * b1, 0,    0,       0,       0,       0,       0,       -(gb 2), -r2,     gb 0,    0;
     -(Real.sin phase * b1), -(Real.cos phase * b1), 0, 0, 0,       0,       0,       0,       0,       gb 1,    -(gb 0), -r1,     0;
     0,       0,       0,       0,       0,       0,       0,       0,       0,       0,       0,       0,       0]

/-- `bloch_mcconnel_matrix_ode` from `bloch.c`: the `(1+3P)×(1+3P)` McConnell
operator.  The C code zero-initializes the matrix, then for each pool `p`
overwrites the diagonal 3×3 block with the base Bloch block for the field
whose z-component is shifted by `Om p`, then overwrites the equilibrium
entries `(3p+2, N−1)` with `m0·Th p·r1 p`, and finally accumulates (`+=`) the
exchange rates `k p q` onto the entries `(3p+i, 3q+i)`.  All overwrites
within a phase target pairwise distinct cells, and no overwrite of a later
phase touches a cell written by an earlier phase, so the final contents are
the sum of the three phases, each rendered as a `Finset` sum of guarded
contributions. -/
def bloch_mcconnel_matrix_ode (P : ℕ) (r1 r2 : Fin P → ℝ) (k : Fin P → Fin P → ℝ)
    (Th Om : Fin P → ℝ) (gb : Fin 3 → ℝ) :
    Matrix (Fin (1 + P * 3)) (Fin (1 + P * 3)) ℝ :=
  let m0 : ℝ := 1
  fun i j =>
    (∑ p : Fin P, ∑ a : Fin 3, ∑ b : Fin 3,
      if (i : ℕ) = 3 * p + a ∧ (j : ℕ) = 3 * p + b then
        bloch_matrix_ode (r1 p) (r2 p) ![gb 0, gb 1, gb 2 + Om p] a.castSucc b.castSucc
      else 0)
    + (∑ p : Fin P,
      if (i : ℕ) = 3 * p + 2 ∧ (j : ℕ) = P * 3 then m0 * Th p * r1 p else 0)
    + (∑ p : Fin P, ∑ q : Fin P, ∑ a : Fin 3,
      if (i : ℕ) = 3 * p + a ∧ (j : ℕ) = 3 * q + a then k p q else 0)

/-- The Euclidean norm of a 3-vector, used to state norm preservation of the
rotation kernels. -/
def norm3 (v : Fin 3 → ℝ) : ℝ :=
  Real.sqrt (v 0 ^ 2 + v 1 ^ 2 + v 2 ^ 2)

/-- The unit basis vectors of ℝ³, used to state the Jacobian property. -/
def unitVec (a : Fin 3) : Fin 3 → ℝ :=
  fun b => if a = b then 1 else 0

/-- Proof-auxiliary closed form of `exp(u·A)` for `A = bloch_matrix_ode r1 r2
(0,0,w)`: decaying rotation in the transverse plane, exponential recovery in
the longitudinal/homogeneous block.  It is shown below (uniqueness of
solutions of the linear ODE) to be the matrix exponential appearing in
`bloch_matrix_int`. -/
def relaxationPropagator (r1 r2 w : ℝ) (u : ℝ) : Matrix (Fin 4) (Fin 4) ℝ :=
  !![Real.exp (-(u * r2)) * Real.cos (w * u),    Real.exp (-(u * r2)) * Real.sin (w * u), 0, 0;
     -(Real.exp (-(u * r2)) * Real.sin (w * u)), Real.exp (-(u * r2)) * Real.cos (w * u), 0, 0;
     0, 0, Real.exp (-(u * r1)), 1 - Real.exp (-(u * r1));
     0, 0, 0, 1]

end

section RotationLemmas

lemma rotx_zero (v : Fin 3 → ℝ) : rotx v 0 = v := by
  funext j
  fin_cases j <;> simp [rotx]

lemma roty_zero (v : Fin 3 → ℝ) : roty v 0 = v := by
  funext j
  fin_cases j <;> simp [roty]

lemma rotz_zero (v : Fin 3 → ℝ) : rotz v 0 = v := by
  funext j
  fin_cases j <;> simp [rotz]

lemma rotz_rotz (v : Fin 3 → ℝ) (a b : ℝ) : rotz (rotz v a) b = rotz v (a + b) := by
  funext j
  fin_cases j <;>
    simp [rotz, Real.cos_add, Real.sin_add] <;> ring

lemma rotx_rotx (v : Fin 3 → ℝ) (a b : ℝ) : rotx (rotx v a) b = rotx v (a + b) := by
  funext j
  fin_cases j <;>
    simp [rotx, Real.cos_add, Real.sin_add] <;> ring

lemma norm3_rotx (v : Fin 3 → ℝ) (a : ℝ) : norm3 (rotx v a) = norm3 v := by
  unfold norm3 rotx
  congr 1
  have h := Real.sin_sq_add_cos_sq a
  simp only [Matrix.cons_val_zero, Matrix.cons_val_one, Matrix.head_cons,
    Matrix.cons_val_two, Matrix.tail_cons]
  nlinarith [h]

lemma norm3_roty (v : Fin 3 → ℝ) (a : ℝ) : norm3 (roty v a) = norm3 v := by
  unfold norm3 roty
  congr 1
  have h := Real.sin_sq_add_cos_sq a
  simp only [Matrix.cons_val_zero, Matrix.cons_val_one, Matrix.head_cons,
    Matrix.cons_val_two, Matrix.tail_cons]
  nlinarith [h]

lemma norm3_rotz (v : Fin 3 → ℝ) (a : ℝ) : norm3 (rotz v a) = norm3 v := by
  unfold norm3 rotz
  congr 1
  have h := Real.sin_sq_add_cos_sq a
  simp only [Matrix.cons_val_zero, Matrix.cons_val_one, Matrix.head_cons,
    Matrix.cons_val_two, Matrix.tail_cons]
  nlinarith [h]

end RotationLemmas

/-- **C8.** Each axis rotation preserves the Euclidean norm, rotation by the
zero angle is the identity, and two z-rotations compose by adding their
angles. -/
theorem rot_norm_id_comp (v : Fin 3 → ℝ) (a b : ℝ) :
    (norm3 (rotx v a) = norm3 v ∧ norm3 (roty v a) = norm3 v ∧
      norm3 (rotz v a) = norm3 v) ∧
    (rotx v 0 = v ∧ roty v 0 = v ∧ rotz v 0 = v) ∧
    rotz (rotz v a) b = rotz v (a + b) :=
  ⟨⟨norm3_rotx v a, norm3_roty v a, norm3_rotz v a⟩,
   ⟨rotx_zero v, roty_zero v, rotz_zero v⟩,
   rotz_rotz v a b⟩

/-- **C9.** The arbitrary-phase RF rotation is inverted by negating the flip
angle at the same phase. -/
theorem excitation2_inverse (M : Fin 3 → ℝ) (angle phase : ℝ) :
    bloch_excitation2 (bloch_excitation2 M angle phase) (-angle) phase = M := by
  unfold bloch_excitation2
  rw [rotz_rotz, add_neg_cancel, rotz_zero, rotx_rotx, add_neg_cancel, rotx_zero,
    rotz_rotz, neg_add_cancel, rotz_zero]

/-- **C2.** The 4×4 matrix built by `bloch_matrix_ode` acts on the augmented
vector `[Mx, My, Mz, 1]` exactly as the Bloch right-hand side `bloch_ode`
acts on `[Mx, My, Mz]`, with zero derivative for the homogeneous
coordinate. -/
theorem bloch_matrix_ode_mulVec (M : Fin 3 → ℝ) (r1 r2 : ℝ) (gb : Fin 3 → ℝ) :
    (bloch_matrix_ode r1 r2 gb).mulVec ![M 0, M 1, M 2, 1] =
      ![bloch_ode M r1 r2 gb 0, bloch_ode M r1 r2 gb 1, bloch_ode M r1 r2 gb 2, 0] := by
  funext i
  fin_cases i <;>
    simp [bloch_matrix_ode, bloch_ode, vec3_rot, Matrix.mulVec, dotProduct,
      Fin.sum_univ_four] <;> ring

/-- **C6.** `bloch_pdy` is the state Jacobian of `bloch_ode`: its column `a`
(stored as row `a` of the C array) is the cross product of the unit basis
vector `eₐ` with the field minus the diagonal relaxation rate (`r2` for the
x and y columns, `r1` for the z column); it does not depend on the state
argument; and `bloch_ode` is recovered as the state-weighted sum of the
columns plus the constant forcing `(0, 0, m0·r1)`. -/
theorem bloch_pdy_jacobian (M N : Fin 3 → ℝ) (r1 r2 : ℝ) (gb : Fin 3 → ℝ) :
    (∀ a b : Fin 3, bloch_pdy M r1 r2 gb a b =
      vec3_rot (unitVec a) gb b - (if a = b then ![r2, r2, r1] a else 0)) ∧
    bloch_pdy M r1 r2 gb = bloch_pdy N r1 r2 gb ∧
    (∀ j : Fin 3, bloch_ode M r1 r2 gb j =
      M 0 * bloch_pdy M r1 r2 gb 0 j + M 1 * bloch_pdy M r1 r2 gb 1 j +
      M 2 * bloch_pdy M r1 r2 gb 2 j + ![0, 0, 1 * r1] j) := by
  refine ⟨fun a b => ?_, rfl, fun j => ?_⟩
  · fin_cases a <;> fin_cases b <;>
      simp [bloch_pdy, vec3_rot, unitVec] <;> ring
  · fin_cases j <;>
      simp [bloch_pdy, bloch_ode, vec3_rot] <;> ring

/-- **C7.** `bloch_relaxation` aborts by assertion exactly when the field has a
nonzero transverse component, `bloch_excitation` aborts exactly when the
z-component is nonzero, and under the respective preconditions both return
their closed-form result normally. -/
theorem relaxation_excitation_assertions (t : ℝ) (M : Fin 3 → ℝ) (r1 r2 : ℝ)
    (gb : Fin 3 → ℝ) :
    (bloch_relaxation_checked t M r1 r2 gb = none ↔ (gb 0 ≠ 0 ∨ gb 1 ≠ 0)) ∧
    ((gb 0 = 0 ∧ gb 1 = 0) →
      bloch_relaxation_checked t M r1 r2 gb = some (bloch_relaxation t M r1 r2 gb)) ∧
    (bloch_excitation_checked t M r1 r2 gb = none ↔ gb 2 ≠ 0) ∧
    (gb 2 = 0 →
      bloch_excitation_checked t M r1 r2 gb = some (bloch_excitation t M r1 r2 gb)) := by
  have e0 : (0 = gb 0) = (gb 0 = 0) := propext eq_comm
  have e1 : (0 = gb 1) = (gb 1 = 0) := propext eq_comm
  have e2 : (0 = gb 2) = (gb 2 = 0) := propext eq_comm
  unfold bloch_relaxation_checked bloch_excitation_checked
  simp only [e0, e1, e2]
  by_cases h0 : gb 0 = 0 <;> by_cases h1 : gb 1 = 0 <;> by_cases h2 : gb 2 = 0 <;>
    simp [h0, h1, h2]

/-- Witness for **C7**: a concrete purely-longitudinal field passes the
relaxation assertion and returns the closed form. -/
theorem relaxation_excitation_assertions_witness :
    bloch_relaxation_checked 1 ![1, 2, 3] 4 5 ![0, 0, 7] =
      some (bloch_relaxation 1 ![1, 2, 3] 4 5 ![0, 0, 7]) :=
  (relaxation_excitation_assertions 1 ![1, 2, 3] 4 5 ![0, 0, 7]).2.1 (by norm_num)

section McConnelLemmas

lemma castSucc_two : Fin.castSucc (2 : Fin 3) = (2 : Fin 4) := rfl

lemma mc_block_entry (P : ℕ) (r1 r2 : Fin P → ℝ) (k : Fin P → Fin P → ℝ)
    (Th Om : Fin P → ℝ) (gb : Fin 3 → ℝ) (p q : Fin P) (a b : Fin 3) :
    bloch_mcconnel_matrix_ode P r1 r2 k Th Om gb
        ⟨3 * p + a, by have := p.isLt; have := a.isLt; omega⟩
        ⟨3 * q + b, by have := q.isLt; have := b.isLt; omega⟩ =
      (if p = q then
        bloch_matrix_ode (r1 p) (r2 p) ![gb 0, gb 1, gb 2 + Om p] a.castSucc b.castSucc
      else 0) + (if a = b then k p q else 0) := by
  have hp := p.isLt; have hq := q.isLt; have ha := a.isLt; have hb := b.isLt
  unfold bloch_mcconnel_matrix_ode
  simp only []
  have h2 : (∑ p' : Fin P,
      if (3 * (p:ℕ) + a = 3 * p' + 2 ∧ 3 * (q:ℕ) + b = P * 3) then 1 * Th p' * r1 p' else 0) = 0 := by
    apply Finset.sum_eq_zero
    intro p' _
    rw [if_neg]
    rintro ⟨-, h⟩
    omega
  have h1 : (∑ p' : Fin P, ∑ a' : Fin 3, ∑ b' : Fin 3,
      if (3 * (p:ℕ) + a = 3 * p' + a' ∧ 3 * (q:ℕ) + b = 3 * p' + b') then
        bloch_matrix_ode (r1 p') (r2 p') ![gb 0, gb 1, gb 2 + Om p'] a'.castSucc b'.castSucc
      else 0) =
      if p = q then
        bloch_matrix_ode (r1 p) (r2 p) ![gb 0, gb 1, gb 2 + Om p] a.castSucc b.castSucc
      else 0 := by
    by_cases hpq : p = q
    · subst hpq
      rw [Finset.sum_eq_single p]
      · rw [Finset.sum_eq_single a]
        · rw [Finset.sum_eq_single b]
          · rw [if_pos ⟨rfl, rfl⟩, if_pos rfl]
          · intro b' _ hne
            rw [if_neg]
            rintro ⟨-, h⟩
            have hb' := b'.isLt
            exact hne (Fin.ext (by omega))
          · intro h; exact absurd (Finset.mem_univ b) h
        · intro a' _ hne
          apply Finset.sum_eq_zero
          intro b' _
          rw [if_neg]
          rintro ⟨h, -⟩
          have ha' := a'.isLt
          exact hne (Fin.ext (by omega))
        · intro h; exact absurd (Finset.mem_univ a) h
      · intro p' _ hne
        apply Finset.sum_eq_zero; intro a' _
        apply Finset.sum_eq_zero; intro b' _
        rw [if_neg]
        rintro ⟨h, -⟩
        have ha' := a'.isLt
        have hp' := p'.isLt
        exact hne (Fin.ext (by omega))
      · intro h; exact absurd (Finset.mem_univ p) h
    · rw [if_neg hpq]
      apply Finset.sum_eq_zero; intro p' _
      apply Finset.sum_eq_zero; intro a' _
      apply Finset.sum_eq_zero; intro b' _
      rw [if_neg]
      rintro ⟨h, h'⟩
      have ha' := a'.isLt
      have hb' := b'.isLt
      have hp' := p'.isLt
      exact hpq (Fin.ext (by omega))
  have h3 : (∑ p' : Fin P, ∑ q' : Fin P, ∑ a' : Fin 3,
      if (3 * (p:ℕ) + a = 3 * p' + a' ∧ 3 * (q:ℕ) + b = 3 * q' + a') then k p' q' else 0) =
      if a = b then k p q else 0 := by
    by_cases hab : a = b
    · subst hab
      rw [Finset.sum_eq_single p]
      · rw [Finset.sum_eq_single q]
        · rw [Finset.sum_eq_single a]
          · rw [if_pos ⟨rfl, rfl⟩, if_pos rfl]
          · intro a' _ hne
            rw [if_neg]
            rintro ⟨h, -⟩
            have ha' := a'.isLt
            exact hne (Fin.ext (by omega))
          · intro h; exact absurd (Finset.mem_univ a) h
        · intro q' _ hne
          apply Finset.sum_eq_zero; intro a' _
          rw [if_neg]
          rintro ⟨h, h'⟩
          have ha' := a'.isLt
          have hq' := q'.isLt
          exact hne (Fin.ext (by omega))
        · intro h; exact absurd (Finset.mem_univ q) h
      · intro p' _ hne
        apply Finset.sum_eq_zero; intro q' _
        apply Finset.sum_eq_zero; intro a' _
        rw [if_neg]
        rintro ⟨h, -⟩
        have ha' := a'.isLt
        have hp' := p'.isLt
        exact hne (Fin.ext (by omega))
      · intro h; exact absurd (Finset.mem_univ p) h
    · rw [if_neg hab]
      apply Finset.sum_eq_zero; intro p' _
      apply Finset.sum_eq_zero; intro q' _
      apply Finset.sum_eq_zero; intro a' _
      rw [if_neg]
      rintro ⟨h, h'⟩
      have ha' := a'.isLt
      exact hab (Fin.ext (by omega))
  rw [h1, h2, h3, add_zero]

lemma mc_equilibrium_entry (P : ℕ) (r1 r2 : Fin P → ℝ) (k : Fin P → Fin P → ℝ)
    (Th Om : Fin P → ℝ) (gb : Fin 3 → ℝ) (p : Fin P) (a : Fin 3) :
    bloch_mcconnel_matrix_ode P r1 r2 k Th Om gb
        ⟨3 * p + a, by have := p.isLt; have := a.isLt; omega⟩
        ⟨P * 3, by omega⟩ =
      if a = 2 then 1 * Th p * r1 p else 0 := by
  have hp := p.isLt; have ha := a.isLt
  unfold bloch_mcconnel_matrix_ode
  simp only [eq_self_iff_true, and_true]
  have h1 : (∑ p' : Fin P, ∑ a' : Fin 3, ∑ b' : Fin 3,
      if (3 * (p:ℕ) + a = 3 * p' + a' ∧ P * 3 = 3 * p' + b') then
        bloch_matrix_ode (r1 p') (r2 p') ![gb 0, gb 1, gb 2 + Om p'] a'.castSucc b'.castSucc
      else 0) = 0 := by
    apply Finset.sum_eq_zero; intro p' _
    apply Finset.sum_eq_zero; intro a' _
    apply Finset.sum_eq_zero; intro b' _
    rw [if_neg]
    rintro ⟨-, h⟩
    have hb' := b'.isLt
    have hp' := p'.isLt
    omega
  have h3 : (∑ p' : Fin P, ∑ q' : Fin P, ∑ a' : Fin 3,
      if (3 * (p:ℕ) + a = 3 * p' + a' ∧ P * 3 = 3 * q' + a') then k p' q' else 0) = 0 := by
    apply Finset.sum_eq_zero; intro p' _
    apply Finset.sum_eq_zero; intro q' _
    apply Finset.sum_eq_zero; intro a' _
    rw [if_neg]
    rintro ⟨-, h⟩
    have ha' := a'.isLt
    have hq' := q'.isLt
    omega
  have h2 : (∑ p' : Fin P,
      if (3 * (p:ℕ) + a = 3 * p' + 2) then 1 * Th p' * r1 p' else 0) =
      if a = 2 then 1 * Th p * r1 p else 0 := by
    by_cases hA : a = (2 : Fin 3)
    · subst hA
      rw [Finset.sum_eq_single p]
      · rw [if_pos (show 3 * (p:ℕ) + ((2 : Fin 3) : ℕ) = 3 * (p:ℕ) + 2 by norm_num),
          if_pos rfl]
      · intro p' _ hne
        rw [if_neg]
        intro h
        have hp' := p'.isLt
        exact hne (Fin.ext (by omega))
      · intro h; exact absurd (Finset.mem_univ p) h
    · rw [if_neg hA]
      apply Finset.sum_eq_zero; intro p' _
      rw [if_neg]
      intro h
      have hp' := p'.isLt
      have hA2 : (a : ℕ) = 2 := by omega
      exact hA (Fin.ext hA2)
  rw [h1, h2, h3, zero_add, add_zero]

lemma mc_last_row (P : ℕ) (r1 r2 : Fin P → ℝ) (k : Fin P → Fin P → ℝ)
    (Th Om : Fin P → ℝ) (gb : Fin 3 → ℝ) (j : Fin (1 + P * 3)) :
    bloch_mcconnel_matrix_ode P r1 r2 k Th Om gb ⟨P * 3, by omega⟩ j = 0 := by
  unfold bloch_mcconnel_matrix_ode
  simp only []
  have h1 : (∑ p' : Fin P, ∑ a' : Fin 3, ∑ b' : Fin 3,
      if (P * 3 = 3 * p' + a' ∧ (j : ℕ) = 3 * p' + b') then
        bloch_matrix_ode (r1 p') (r2 p') ![gb 0, gb 1, gb 2 + Om p'] a'.castSucc b'.castSucc
      else 0) = 0 := by
    apply Finset.sum_eq_zero; intro p' _
    apply Finset.sum_eq_zero; intro a' _
    apply Finset.sum_eq_zero; intro b' _
    rw [if_neg]
    rintro ⟨h, -⟩
    have ha' := a'.isLt
    have hp' := p'.isLt
    omega
  have h2 : (∑ p' : Fin P,
      if (P * 3 = 3 * p' + 2 ∧ (j : ℕ) = P * 3) then 1 * Th p' * r1 p' else 0) = 0 := by
    apply Finset.sum_eq_zero; intro p' _
    rw [if_neg]
    rintro ⟨h, -⟩
    have hp' := p'.isLt
    omega
  have h3 : (∑ p' : Fin P, ∑ q' : Fin P, ∑ a' : Fin 3,
      if (P * 3 = 3 * p' + a' ∧ (j : ℕ) = 3 * q' + a') then k p' q' else 0) = 0 := by
    apply Finset.sum_eq_zero; intro p' _
    apply Finset.sum_eq_zero; intro q' _
    apply Finset.sum_eq_zero; intro a' _
    rw [if_neg]
    rintro ⟨h, -⟩
    have ha' := a'.isLt
    have hp' := p'.isLt
    omega
  rw [h1, h2, h3, add_zero, add_zero]

end McConnelLemmas

/-- **C4.** For every pool count `P ≥ 1`, the `(1+3P)×(1+3P)` McConnell matrix
equals the zero matrix overwritten with: the diagonal 3×3 base Bloch block for
the field z-shifted by `Om p` plus the exchange rate `k p q` added on the
three diagonal-aligned entries of every ordered block pair `(p, q)`; the
equilibrium forcing `m0·Th p·r1 p` at `(3p+2, N−1)`; and zero everywhere
else, including the whole last row. -/
theorem mcconnel_matrix_structure (P : ℕ) (hP : 1 ≤ P) (r1 r2 : Fin P → ℝ)
    (k : Fin P → Fin P → ℝ) (Th Om : Fin P → ℝ) (gb : Fin 3 → ℝ) :
    (∀ (p q : Fin P) (a b : Fin 3),
      bloch_mcconnel_matrix_ode P r1 r2 k Th Om gb
          ⟨3 * p + a, by have := p.isLt; have := a.isLt; omega⟩
          ⟨3 * q + b, by have := q.isLt; have := b.isLt; omega⟩ =
        (if p = q then
          bloch_matrix_ode (r1 p) (r2 p) ![gb 0, gb 1, gb 2 + Om p] a.castSucc b.castSucc
        else 0) + (if a = b then k p q else 0)) ∧
    (∀ (p : Fin P) (a : Fin 3),
      bloch_mcconnel_matrix_ode P r1 r2 k Th Om gb
          ⟨3 * p + a, by have := p.isLt; have := a.isLt; omega⟩
          ⟨P * 3, by omega⟩ =
        if a = 2 then 1 * Th p * r1 p else 0) ∧
    (∀ j, bloch_mcconnel_matrix_ode P r1 r2 k Th Om gb ⟨P * 3, by omega⟩ j = 0) :=
  ⟨fun p q a b => mc_block_entry P r1 r2 k Th Om gb p q a b,
   fun p a => mc_equilibrium_entry P r1 r2 k Th Om gb p a,
   fun j => mc_last_row P r1 r2 k Th Om gb j⟩

/-- Witness for **C4**: for a concrete single-pool system the equilibrium
entry `(2, 3)` evaluates to `m0·Th₀·r1₀ = 2`. -/
theorem mcconnel_matrix_structure_witness :
    bloch_mcconnel_matrix_ode 1 ![2] ![3] ![![0]] ![1] ![5] ![0, 0, 7]
        ⟨2, by omega⟩ ⟨3, by omega⟩ = 2 := by
  have h := (mcconnel_matrix_structure 1 (le_refl 1) ![2] ![3] ![![0]] ![1] ![5]
    ![0, 0, 7]).2.1 0 2
  norm_num at h
  exact h

/-- **C5.** With a single pool, zero exchange rate and unit equilibrium
fraction, the McConnell matrix is entry-for-entry the base 4×4 Bloch matrix
for the field whose z-component is shifted by the pool frequency offset. -/
theorem mcconnel_single_pool_reduction (r1 r2 Om : ℝ) (gb : Fin 3 → ℝ) :
    bloch_mcconnel_matrix_ode 1 ![r1] ![r2] ![![0]] ![1] ![Om] gb =
      bloch_matrix_ode r1 r2 ![gb 0, gb 1, gb 2 + Om] := by
  funext i j
  fin_cases i <;> fin_cases j <;>
    norm_num [bloch_mcconnel_matrix_ode, bloch_matrix_ode, Fin.sum_univ_three,
      castSucc_two]

lemma mulVec_zero_row {n : ℕ} (M : Matrix (Fin n) (Fin n) ℝ) (i : Fin n)
    (h : ∀ j, M i j = 0) (x : Fin n → ℝ) : M.mulVec x i = 0 := by
  unfold Matrix.mulVec dotProduct
  apply Finset.sum_eq_zero
  intro j _
  show M i j * x j = 0
  rw [h j, zero_mul]

section VecEval

variable {α : Type*}

lemma fin3_val_two : ((2 : Fin 3) : ℕ) = 2 := rfl

lemma fin3_mk0 (h : (0:ℕ) < 3) : (⟨0, h⟩ : Fin 3) = 0 := rfl

lemma fin3_mk1 (h : (1:ℕ) < 3) : (⟨1, h⟩ : Fin 3) = 1 := rfl

lemma fin3_mk2 (h : (2:ℕ) < 3) : (⟨2, h⟩ : Fin 3) = 2 := rfl

lemma vec4_2 (a0 a1 a2 a3 : α) : ![a0, a1, a2, a3] (2 : Fin 4) = a2 := rfl

lemma vec4_3 (a0 a1 a2 a3 : α) : ![a0, a1, a2, a3] (3 : Fin 4) = a3 := rfl

lemma vec10_mk0 (h : (0:ℕ) < 10) (a0 a1 a2 a3 a4 a5 a6 a7 a8 a9 : α) :
    ![a0, a1, a2, a3, a4, a5, a6, a7, a8, a9] ⟨0, h⟩ = a0 := rfl

lemma vec10_mk1 (h : (1:ℕ) < 10) (a0 a1 a2 a3 a4 a5 a6 a7 a8 a9 : α) :
    ![a0, a1, a2, a3, a4, a5, a6, a7, a8, a9] ⟨1, h⟩ = a1 := rfl

lemma vec10_mk2 (h : (2:ℕ) < 10) (a0 a1 a2 a3 a4 a5 a6 a7 a8 a9 : α) :
    ![a0, a1, a2, a3, a4, a5, a6, a7, a8, a9] ⟨2, h⟩ = a2 := rfl

lemma vec10_mk3 (h : (3:ℕ) < 10) (a0 a1 a2 a3 a4 a5 a6 a7 a8 a9 : α) :
    ![a0, a1, a2, a3, a4, a5, a6, a7, a8, a9] ⟨3, h⟩ = a3 := rfl

lemma vec10_mk4 (h : (4:ℕ) < 10) (a0 a1 a2 a3 a4 a5 a6 a7 a8 a9 : α) :
    ![a0, a1, a2, a3, a4, a5, a6, a7, a8, a9] ⟨4, h⟩ = a4 := rfl

lemma vec10_mk5 (h : (5:ℕ) < 10) (a0 a1 a2 a3 a4 a5 a6 a7 a8 a9 : α) :
    ![a0, a1, a2, a3, a4, a5, a6, a7, a8, a9] ⟨5, h⟩ = a5 := rfl

lemma vec10_mk6 (h : (6:ℕ) < 10) (a0 a1 a2 a3 a4 a5 a6 a7 a8 a9 : α) :
    ![a0, a1, a2, a3, a4, a5, a6, a7, a8, a9] ⟨6, h⟩ = a6 := rfl

lemma vec10_mk7 (h : (7:ℕ) < 10) (a0 a1 a2 a3 a4 a5 a6 a7 a8 a9 : α) :
    ![a0, a1, a2, a3, a4, a5, a6, a7, a8, a9] ⟨7, h⟩ = a7 := rfl

lemma vec10_mk8 (h : (8:ℕ) < 10) (a0 a1 a2 a3 a4 a5 a6 a7 a8 a9 : α) :
    ![a0, a1, a2, a3, a4, a5, a6, a7, a8, a9] ⟨8, h⟩ = a8 := rfl

lemma vec10_9 (a0 a1 a2 a3 a4 a5 a6 a7 a8 a9 : α) :
    ![a0, a1, a2, a3, a4, a5, a6, a7, a8, a9] (9 : Fin 10) = a9 := rfl

end VecEval

/-- Counterexample for **C3** as stated: the last column of the 10×10
sensitivity matrix is *not* zero outside the base-state rows — the z-row of
the R1-sensitivity block (row 5) carries the constant forcing `m0 = 1` (the
derivative of the `m0·r1` forcing with respect to `r1`), which differs from
`0` (and from `m0·r1 = 1/2` at `r1 = 1/2`). -/
theorem sa10_forcing_counterexample :
    bloch_matrix_ode_sa (1/2) (1/3) ![0, 0, 0] 5 9 = 1 ∧
    bloch_matrix_ode_sa (1/2) (1/3) ![0, 0, 0] 5 9 ≠ 0 := by
  have h : bloch_matrix_ode_sa (1/2) (1/3) ![0, 0, 0] 5 9 = 1 := rfl
  exact ⟨h, by rw [h]; norm_num⟩

/-- **C3 (amended).** The 10×10 sensitivity matrix consists of three stacked
3-row blocks: all three diagonal 3×3 sub-blocks equal the base Bloch block;
the off-diagonal `−1` entries couple the R1-sensitivity block (entry `(5,2)`)
and the R2-sensitivity block (entries `(6,0)`, `(7,1)`) back to block 0; the
last column carries the constant forcing `m0·r1` in base-state row 2 *and*
the constant `m0` in R1-sensitivity row 5 (zero in all other rows); and the
last row is zero. -/
theorem sa10_structure (r1 r2 : ℝ) (gb : Fin 3 → ℝ) :
    (∀ blkr blkc a b : Fin 3,
      bloch_matrix_ode_sa r1 r2 gb
          ⟨3 * blkr + a, by have := blkr.isLt; have := a.isLt; omega⟩
          ⟨3 * blkc + b, by have := blkc.isLt; have := b.isLt; omega⟩ =
        (if blkr = blkc then bloch_matrix_ode r1 r2 gb a.castSucc b.castSucc else 0)
        + (if blkr = 1 ∧ blkc = 0 ∧ a = 2 ∧ b = 2 then -1 else 0)
        + (if blkr = 2 ∧ blkc = 0 ∧ a = b ∧ (a = 0 ∨ a = 1) then -1 else 0)) ∧
    (∀ blk a : Fin 3,
      bloch_matrix_ode_sa r1 r2 gb
          ⟨3 * blk + a, by have := blk.isLt; have := a.isLt; omega⟩ 9 =
        (if blk = 0 ∧ a = 2 then 1 * r1 else 0) + (if blk = 1 ∧ a = 2 then 1 else 0)) ∧
    (∀ j, bloch_matrix_ode_sa r1 r2 gb 9 j = 0) := by
  refine ⟨fun blkr blkc a b => ?_, fun blk a => ?_, fun j => ?_⟩
  · fin_cases blkr <;> fin_cases blkc <;> fin_cases a <;> fin_cases b <;>
      simp +decide only [bloch_matrix_ode_sa, bloch_matrix_ode, Matrix.of_apply,
        Matrix.cons_val_zero, Matrix.cons_val_one, Matrix.head_cons,
        Fin.val_mk, Fin.val_zero, Fin.val_one, fin3_val_two, fin3_mk0, fin3_mk1, fin3_mk2,
        Nat.reduceMul, Nat.reduceAdd, vec10_mk0, vec10_mk1, vec10_mk2, vec10_mk3,
        vec10_mk4, vec10_mk5, vec10_mk6, vec10_mk7, vec10_mk8, vec10_9,
        Fin.castSucc_zero, Fin.castSucc_one, castSucc_two, vec4_2, vec4_3,
        reduceIte, add_zero, zero_add]
  · fin_cases blk <;> fin_cases a <;>
      simp +decide only [bloch_matrix_ode_sa, Matrix.of_apply,
        Matrix.cons_val_zero, Matrix.cons_val_one, Matrix.head_cons,
        Fin.val_mk, Fin.val_zero, Fin.val_one, fin3_val_two, fin3_mk0, fin3_mk1, fin3_mk2,
        Nat.reduceMul, Nat.reduceAdd, vec10_mk0, vec10_mk1, vec10_mk2, vec10_mk3,
        vec10_mk4, vec10_mk5, vec10_mk6, vec10_mk7, vec10_mk8, vec10_9,
        reduceIte, add_zero, zero_add]
  · fin_cases j <;> rfl

/-- **C10.** Every operator builder (4×4 base, 10×10 and 13×13
sensitivity-augmented, `(1+3P)×(1+3P)` exchange) produces a matrix whose last
row is identically zero, so under `d/dt x = A·x` the homogeneous coordinate
has zero derivative for every augmented state. -/
theorem operators_last_row_zero :
    (∀ (r1 r2 : ℝ) (gb : Fin 3 → ℝ),
      (∀ j, bloch_matrix_ode r1 r2 gb 3 j = 0) ∧
      ∀ x : Fin 4 → ℝ, (bloch_matrix_ode r1 r2 gb).mulVec x 3 = 0) ∧
    (∀ (r1 r2 : ℝ) (gb : Fin 3 → ℝ),
      (∀ j, bloch_matrix_ode_sa r1 r2 gb 9 j = 0) ∧
      ∀ x : Fin 10 → ℝ, (bloch_matrix_ode_sa r1 r2 gb).mulVec x 9 = 0) ∧
    (∀ (r1 r2 : ℝ) (gb : Fin 3 → ℝ) (phase b1 : ℝ),
      (∀ j, bloch_matrix_ode_sa2 r1 r2 gb phase b1 12 j = 0) ∧
      ∀ x : Fin 13 → ℝ, (bloch_matrix_ode_sa2 r1 r2 gb phase b1).mulVec x 12 = 0) ∧
    (∀ (P : ℕ) (r1 r2 : Fin P → ℝ) (k : Fin P → Fin P → ℝ) (Th Om : Fin P → ℝ)
      (gb : Fin 3 → ℝ),
      (∀ j, bloch_mcconnel_matrix_ode P r1 r2 k Th Om gb ⟨P * 3, by omega⟩ j = 0) ∧
      ∀ x : Fin (1 + P * 3) → ℝ,
        (bloch_mcconnel_matrix_ode P r1 r2 k Th Om gb).mulVec x ⟨P * 3, by omega⟩ = 0) := by
  refine ⟨fun r1 r2 gb => ?_, fun r1 r2 gb => ?_, fun r1 r2 gb phase b1 => ?_,
    fun P r1 r2 k Th Om gb => ?_⟩
  · have h : ∀ j, bloch_matrix_ode r1 r2 gb 3 j = 0 := fun j => by fin_cases j <;> rfl
    exact ⟨h, fun x => mulVec_zero_row _ _ h x⟩
  · have h : ∀ j, bloch_matrix_ode_sa r1 r2 gb 9 j = 0 := fun j => by fin_cases j <;> rfl
    exact ⟨h, fun x => mulVec_zero_row _ _ h x⟩
  · have h : ∀ j, bloch_matrix_ode_sa2 r1 r2 gb phase b1 12 j = 0 := fun j => by
      fin_cases j <;> rfl
    exact ⟨h, fun x => mulVec_zero_row _ _ h x⟩
  · have h := mc_last_row P r1 r2 k Th Om gb
    exact ⟨h, fun x => mulVec_zero_row _ _ h x⟩

section Vec4Eval

variable {α : Type*}

lemma vec4_mk0 (h : (0:ℕ) < 4) (a0 a1 a2 a3 : α) : ![a0, a1, a2, a3] ⟨0, h⟩ = a0 := rfl

lemma vec4_mk1 (h : (1:ℕ) < 4) (a0 a1 a2 a3 : α) : ![a0, a1, a2, a3] ⟨1, h⟩ = a1 := rfl

lemma vec4_mk2 (h : (2:ℕ) < 4) (a0 a1 a2 a3 : α) : ![a0, a1, a2, a3] ⟨2, h⟩ = a2 := rfl

lemma vec4_mk3 (h : (3:ℕ) < 4) (a0 a1 a2 a3 : α) : ![a0, a1, a2, a3] ⟨3, h⟩ = a3 := rfl

lemma vec4_1 (a0 a1 a2 a3 : α) : ![a0, a1, a2, a3] (1 : Fin 4) = a1 := rfl

lemma vec3_2 (a0 a1 a2 : α) : ![a0, a1, a2] (2 : Fin 3) = a2 := rfl

end Vec4Eval

section ExponentialEquivalence

lemma relaxationPropagator_zero (r1 r2 w : ℝ) : relaxationPropagator r1 r2 w 0 = 1 := by
  funext i j
  fin_cases i <;> fin_cases j <;>
    simp +decide only [relaxationPropagator, Matrix.of_apply, Matrix.cons_val_zero,
      Matrix.cons_val_one, Matrix.head_cons, vec4_mk0, vec4_mk1, vec4_mk2, vec4_mk3,
      vec4_1, vec4_2, vec4_3, Matrix.one_apply, reduceIte, zero_mul, mul_zero, neg_zero,
      Real.exp_zero, Real.cos_zero, Real.sin_zero, mul_one, one_mul, sub_self]

lemma exp_bloch_matrix (t r1 r2 w : ℝ) :
    NormedSpace.exp ℝ (t • bloch_matrix_ode r1 r2 ![0, 0, w]) =
      relaxationPropagator r1 r2 w t := by
  letI : SeminormedRing (Matrix (Fin 4) (Fin 4) ℝ) := Matrix.linftyOpSemiNormedRing
  letI : NormedRing (Matrix (Fin 4) (Fin 4) ℝ) := Matrix.linftyOpNormedRing
  letI : NormedAlgebra ℝ (Matrix (Fin 4) (Fin 4) ℝ) := Matrix.linftyOpNormedAlgebra
  have hE : ∀ u : ℝ, HasDerivAt (relaxationPropagator r1 r2 w)
      (bloch_matrix_ode r1 r2 ![0, 0, w] * relaxationPropagator r1 r2 w u) u := by
    intro u
    have hw : HasDerivAt (fun v : ℝ => w * v) w u := by
      simpa using (hasDerivAt_id u).const_mul w
    have hr2 : HasDerivAt (fun v : ℝ => -(v * r2)) (-r2) u := by
      simpa using (hasDerivAt_mul_const r2).neg
    have hr1 : HasDerivAt (fun v : ℝ => -(v * r1)) (-r1) u := by
      simpa using (hasDerivAt_mul_const r1).neg
    have hcos : HasDerivAt (fun v : ℝ => Real.cos (w * v)) (-Real.sin (w * u) * w) u := hw.cos
    have hsin : HasDerivAt (fun v : ℝ => Real.sin (w * v)) (Real.cos (w * u) * w) u := hw.sin
    have hexp2 : HasDerivAt (fun v : ℝ => Real.exp (-(v * r2)))
        (Real.exp (-(u * r2)) * -r2) u := hr2.exp
    have hexp1 : HasDerivAt (fun v : ℝ => Real.exp (-(v * r1)))
        (Real.exp (-(u * r1)) * -r1) u := hr1.exp
    have hf1 : HasDerivAt (fun v : ℝ => Real.exp (-(v * r2)) * Real.cos (w * v))
        (Real.exp (-(u * r2)) * -r2 * Real.cos (w * u) +
          Real.exp (-(u * r2)) * (-Real.sin (w * u) * w)) u := hexp2.mul hcos
    have hf2 : HasDerivAt (fun v : ℝ => Real.exp (-(v * r2)) * Real.sin (w * v))
        (Real.exp (-(u * r2)) * -r2 * Real.sin (w * u) +
          Real.exp (-(u * r2)) * (Real.cos (w * u) * w)) u := hexp2.mul hsin
    have h := (((hf1.smul_const
        (!![1, 0, 0, 0; 0, 1, 0, 0; 0, 0, 0, 0; 0, 0, 0, 0] : Matrix (Fin 4) (Fin 4) ℝ)).add
      (hf2.smul_const
        (!![0, 1, 0, 0; -1, 0, 0, 0; 0, 0, 0, 0; 0, 0, 0, 0] : Matrix (Fin 4) (Fin 4) ℝ))).add
      (hexp1.smul_const
        (!![0, 0, 0, 0; 0, 0, 0, 0; 0, 0, 1, -1; 0, 0, 0, 0] : Matrix (Fin 4) (Fin 4) ℝ))).add_const
        (!![0, 0, 0, 0; 0, 0, 0, 0; 0, 0, 0, 1; 0, 0, 0, 1] : Matrix (Fin 4) (Fin 4) ℝ)
    have hfun : relaxationPropagator r1 r2 w = fun v : ℝ =>
        (Real.exp (-(v * r2)) * Real.cos (w * v)) •
          (!![1, 0, 0, 0; 0, 1, 0, 0; 0, 0, 0, 0; 0, 0, 0, 0] : Matrix (Fin 4) (Fin 4) ℝ) +
        (Real.exp (-(v * r2)) * Real.sin (w * v)) •
          (!![0, 1, 0, 0; -1, 0, 0, 0; 0, 0, 0, 0; 0, 0, 0, 0] : Matrix (Fin 4) (Fin 4) ℝ) +
        Real.exp (-(v * r1)) •
          (!![0, 0, 0, 0; 0, 0, 0, 0; 0, 0, 1, -1; 0, 0, 0, 0] : Matrix (Fin 4) (Fin 4) ℝ) +
        (!![0, 0, 0, 0; 0, 0, 0, 0; 0, 0, 0, 1; 0, 0, 0, 1] : Matrix (Fin 4) (Fin 4) ℝ) := by
      funext v
      funext i j
      fin_cases i <;> fin_cases j <;>
        simp only [relaxationPropagator, Matrix.smul_apply, Matrix.add_apply,
          Matrix.of_apply, Matrix.cons_val_zero, Matrix.cons_val_one, Matrix.head_cons,
          vec4_mk0, vec4_mk1, vec4_mk2, vec4_mk3, vec4_1, vec4_2, vec4_3,
          smul_eq_mul] <;> ring
    have hD : (Real.exp (-(u * r2)) * -r2 * Real.cos (w * u) +
          Real.exp (-(u * r2)) * (-Real.sin (w * u) * w)) •
          (!![1, 0, 0, 0; 0, 1, 0, 0; 0, 0, 0, 0; 0, 0, 0, 0] : Matrix (Fin 4) (Fin 4) ℝ) +
        (Real.exp (-(u * r2)) * -r2 * Real.sin (w * u) +
          Real.exp (-(u * r2)) * (Real.cos (w * u) * w)) •
          (!![0, 1, 0, 0; -1, 0, 0, 0; 0, 0, 0, 0; 0, 0, 0, 0] : Matrix (Fin 4) (Fin 4) ℝ) +
        (Real.exp (-(u * r1)) * -r1) •
          (!![0, 0, 0, 0; 0, 0, 0, 0; 0, 0, 1, -1; 0, 0, 0, 0] : Matrix (Fin 4) (Fin 4) ℝ) =
        bloch_matrix_ode r1 r2 ![0, 0, w] * relaxationPropagator r1 r2 w u := by
      funext i j
      fin_cases i <;> fin_cases j <;>
        simp only [relaxationPropagator, bloch_matrix_ode, Matrix.mul_apply,
          Fin.sum_univ_four, Matrix.smul_apply, Matrix.add_apply, Matrix.of_apply,
          Matrix.cons_val_zero, Matrix.cons_val_one, Matrix.head_cons,
          vec4_mk0, vec4_mk1, vec4_mk2, vec4_mk3, vec4_1, vec4_2, vec4_3, vec3_2,
          smul_eq_mul] <;> ring
    exact hD ▸ hfun.symm ▸ h
  have hG : ∀ u : ℝ, HasDerivAt (fun v : ℝ =>
      NormedSpace.exp ℝ (v • (-(bloch_matrix_ode r1 r2 ![0, 0, w]))) *
        relaxationPropagator r1 r2 w v) 0 u := by
    intro u
    have hX : HasDerivAt (fun v : ℝ =>
        NormedSpace.exp ℝ (v • (-(bloch_matrix_ode r1 r2 ![0, 0, w]))))
        (NormedSpace.exp ℝ (u • (-(bloch_matrix_ode r1 r2 ![0, 0, w]))) *
          (-(bloch_matrix_ode r1 r2 ![0, 0, w]))) u :=
      hasDerivAt_exp_smul_const _ u
    have h := hX.mul (hE u)
    have heq : NormedSpace.exp ℝ (u • (-(bloch_matrix_ode r1 r2 ![0, 0, w]))) *
          (-(bloch_matrix_ode r1 r2 ![0, 0, w])) * relaxationPropagator r1 r2 w u +
        NormedSpace.exp ℝ (u • (-(bloch_matrix_ode r1 r2 ![0, 0, w]))) *
          (bloch_matrix_ode r1 r2 ![0, 0, w] * relaxationPropagator r1 r2 w u) = 0 := by
      rw [mul_assoc, neg_mul, mul_neg, neg_add_cancel]
    exact heq ▸ h
  have hdiff : Differentiable ℝ (fun v : ℝ =>
      NormedSpace.exp ℝ (v • (-(bloch_matrix_ode r1 r2 ![0, 0, w]))) *
        relaxationPropagator r1 r2 w v) := fun v => (hG v).differentiableAt
  have hfz : ∀ x : ℝ, fderiv ℝ (fun v : ℝ =>
      NormedSpace.exp ℝ (v • (-(bloch_matrix_ode r1 r2 ![0, 0, w]))) *
        relaxationPropagator r1 r2 w v) x = 0 := by
    intro x
    have hh := (hG x).hasFDerivAt.fderiv
    rw [hh]
    ext v i j
    simp
  have key : ∀ u : ℝ, NormedSpace.exp ℝ (u • (-(bloch_matrix_ode r1 r2 ![0, 0, w]))) *
      relaxationPropagator r1 r2 w u = 1 := by
    intro u
    have hconst := is_const_of_fderiv_eq_zero hdiff hfz u 0
    simp only [] at hconst
    rw [hconst, zero_smul, NormedSpace.exp_zero, relaxationPropagator_zero, one_mul]
  have hinv : NormedSpace.exp ℝ (t • bloch_matrix_ode r1 r2 ![0, 0, w]) *
      NormedSpace.exp ℝ (t • (-(bloch_matrix_ode r1 r2 ![0, 0, w]))) = 1 := by
    rw [smul_neg, ← Matrix.exp_add_of_commute ℝ _ _
      ((Commute.refl (t • bloch_matrix_ode r1 r2 ![0, 0, w])).neg_right), add_neg_cancel]
    exact NormedSpace.exp_zero
  calc NormedSpace.exp ℝ (t • bloch_matrix_ode r1 r2 ![0, 0, w])
      = NormedSpace.exp ℝ (t • bloch_matrix_ode r1 r2 ![0, 0, w]) *
        (NormedSpace.exp ℝ (t • (-(bloch_matrix_ode r1 r2 ![0, 0, w]))) *
          relaxationPropagator r1 r2 w t) := by rw [key t, mul_one]
    _ = NormedSpace.exp ℝ (t • bloch_matrix_ode r1 r2 ![0, 0, w]) *
        NormedSpace.exp ℝ (t • (-(bloch_matrix_ode r1 r2 ![0, 0, w]))) *
          relaxationPropagator r1 r2 w t := (mul_assoc _ _ _).symm
    _ = relaxationPropagator r1 r2 w t := by rw [hinv, one_mul]

end ExponentialEquivalence

/-- **C1.** For a purely longitudinal field `(0, 0, w)` and all `t, r1, r2 ≥ 0`,
applying the matrix-exponential propagator `bloch_matrix_int` to the
augmented vector `[Mx, My, Mz, 1]` gives the closed-form `bloch_relaxation`
in the first three components and `1` in the fourth. -/
theorem bloch_matrix_int_relaxation (Mx My Mz t r1 r2 w : ℝ)
    (ht : 0 ≤ t) (h1 : 0 ≤ r1) (h2 : 0 ≤ r2) :
    (bloch_matrix_int t r1 r2 ![0, 0, w]).mulVec ![Mx, My, Mz, 1] =
      ![bloch_relaxation t ![Mx, My, Mz] r1 r2 ![0, 0, w] 0,
        bloch_relaxation t ![Mx, My, Mz] r1 r2 ![0, 0, w] 1,
        bloch_relaxation t ![Mx, My, Mz] r1 r2 ![0, 0, w] 2,
        1] := by
  unfold bloch_matrix_int mat_exp
  rw [exp_bloch_matrix]
  funext i
  fin_cases i <;>
    simp [relaxationPropagator, bloch_relaxation, rotz, Matrix.mulVec, dotProduct,
      Fin.sum_univ_four] <;> ring

/-- Witness for **C1** at `t = 1`, `r1 = r2 = 0`, `w = 0`, `M = (1, 0, 0)`. -/
theorem bloch_matrix_int_relaxation_witness :
    (bloch_matrix_int 1 0 0 ![0, 0, 0]).mulVec ![1, 0, 0, 1] =
      ![bloch_relaxation 1 ![1, 0, 0] 0 0 ![0, 0, 0] 0,
        bloch_relaxation 1 ![1, 0, 0] 0 0 ![0, 0, 0] 1,
        bloch_relaxation 1 ![1, 0, 0] 0 0 ![0, 0, 0] 2,
        1] :=
  bloch_matrix_int_relaxation 1 0 0 1 0 0 0 zero_le_one (le_refl 0) (le_refl 0)
